import Mathlib

/-!
Shallow embedding of the surge download-engine core: per-host rate limiter
with jitter and exponential backoff, the process-wide limiter registry,
chunk planning, the single-stream downloader's no-retry streaming loop, and
the `EnsureAbsPath` path utility.

The limiter, registry, planner and downloader implementations are not part
of the visible sources (only their tests are), so those definitions are
modelled from the specification; `EnsureAbsPath` is embedded from the
source in `src/unnamed/part_001`, with the Go standard library's
`filepath.Abs` / `filepath.Clean` semantics spelled out explicitly.

Durations and instants are rational numbers of seconds; randomness is made
explicit by passing the uniform sample `u ∈ [0, 1]` consumed by the jitter
primitive as an argument.
-/

namespace Surge

/-- Modelled from the spec (§4.1): `addJitter(base, frac)` returns a value
drawn uniformly from `[base·(1−frac), base·(1+frac)]`.  The uniform draw is
the explicit sample `u ∈ [0, 1]`; the returned duration is
`base·(1 + frac·(2u − 1))`, which sweeps exactly that interval. -/
def addJitter (base frac u : ℚ) : ℚ :=
  base * (1 + frac * (2 * u - 1))

/-- Modelled from the spec (§4.2 edge cases and §9): the `Retry-After`
header of the response passed to `Handle429`, abstracted by its parse
outcome.  `intSecs n` is a value that parses as a non-negative integer,
`negInt` a negative integer (treated as malformed), `httpDate t` an
RFC 1123 date denoting the instant `t` (seconds), `malformed` any other
value, and `absent` a response with no `Retry-After` header. -/
inductive RetryAfterView where
  | absent : RetryAfterView
  | intSecs (n : ℕ) : RetryAfterView
  | negInt : RetryAfterView
  | httpDate (t : ℚ) : RetryAfterView
  | malformed : RetryAfterView
  deriving DecidableEq

/-- Modelled from the spec (§3): per-host rate limiter state, a streak
counter `consecutive429` and a `blockedUntil` instant (0 = never blocked). -/
structure RateLimiter where
  host : String
  consecutive429 : ℕ
  blockedUntil : ℚ
  deriving DecidableEq

/-- Modelled from the spec (§3): a fresh limiter has no streak and is not
blocked. -/
def NewRateLimiter (host : String) : RateLimiter :=
  { host := host, consecutive429 := 0, blockedUntil := 0 }

/-- Modelled from the spec (§4.2 step 3): the exponential backoff ceiling,
5 minutes = 300 seconds. -/
def backoffCeiling : ℚ := 300

/-- Modelled from the spec (§4.2 steps 1–3): the pre-jitter wait candidate.
An integer `Retry-After: N` gives `N` seconds; a future HTTP-date gives that
instant minus now (0 if in the past); everything else (absent, malformed,
negative) falls through to `2^consecutive429` seconds, read before the
increment and capped at the ceiling. -/
def waitCandidate (st : RateLimiter) (hv : RetryAfterView) (now : ℚ) : ℚ :=
  match hv with
  | .intSecs n => (n : ℚ)
  | .httpDate t => max (t - now) 0
  | _ => min ((2 : ℚ) ^ st.consecutive429) backoffCeiling

/-- Modelled from the spec (§4.2 steps 4–5): `Handle429` jitters the
candidate with fraction 0.10, pushes `blockedUntil` to the later of its
current value and `now + jittered`, increments `consecutive429`, and
returns the jittered duration.  `u` is the jitter sample. -/
def Handle429 (st : RateLimiter) (hv : RetryAfterView) (now u : ℚ) :
    ℚ × RateLimiter :=
  let jittered := addJitter (waitCandidate st hv now) (1 / 10) u
  (jittered,
    { st with
      blockedUntil := max st.blockedUntil (now + jittered)
      consecutive429 := st.consecutive429 + 1 })

/-- Modelled from the spec (§4.2): `ReportSuccess` sets the streak counter
to 0 and does not clear `blockedUntil`. -/
def ReportSuccess (st : RateLimiter) : RateLimiter :=
  { st with consecutive429 := 0 }

/-- Modelled from the spec (§3): `IsBlocked()` is true iff
`now < blockedUntil`. -/
def IsBlocked (st : RateLimiter) (now : ℚ) : Bool :=
  decide (now < st.blockedUntil)

/-- The limiter state after `k` successive `Handle429` calls on header-less
responses starting from `st`; call number `i` (0-based) happens at instant
`now i` with jitter sample `u i`. -/
def calls429 (st : RateLimiter) (now u : ℕ → ℚ) : ℕ → RateLimiter
  | 0 => st
  | k + 1 => (Handle429 (calls429 st now u k) .absent (now k) (u k)).2

/-- Modelled from the spec (§3): `RateLimitError` carries a wait duration;
the model restricts it to a whole number of seconds (under a minute this is
rendered by Go exactly as the decimal digits followed by `s`). -/
structure RateLimitError where
  WaitDurationSecs : ℕ
  deriving DecidableEq

/-- Modelled from the spec (§3): a whole-second duration rendered with its
unit suffix, e.g. `5` ↦ `"5s"`. -/
def formatSecs (n : ℕ) : String :=
  toString n ++ "s"

/-- Modelled from the spec (§3): the user-facing text of a
`RateLimitError`. -/
def RateLimitError.Error (e : RateLimitError) : String :=
  "rate limited (429), retry after " ++ formatSecs e.WaitDurationSecs

/-- Index of the first occurrence of `h`, used to model which shared
`RateLimiter` instance a registry lookup returns: two lookups return
pointer-equal instances exactly when they return the same index. -/
def hostIdx : List String → String → Option ℕ
  | [], _ => none
  | x :: xs, h => if x = h then some 0 else (hostIdx xs h).map (· + 1)

/-- Modelled from the spec (§4.3): the process-wide registry state, the
hosts observed since the last `Reset` in first-lookup order.  The
`RateLimiter` owned by a host is identified by the host's index. -/
structure LimitManager where
  hosts : List String
  deriving DecidableEq

/-- Modelled from the spec (§4.3): `Reset()` drops all entries. -/
def ResetManager : LimitManager :=
  { hosts := [] }

/-- Modelled from the spec (§4.3): `GetLimiter(host)` returns the existing
instance or creates one; the returned `ℕ` is the identity (index) of the
shared instance handed back to the caller. -/
def GetLimiter (m : LimitManager) (h : String) : ℕ × LimitManager :=
  match hostIdx m.hosts h with
  | some i => (i, m)
  | none => (m.hosts.length, { hosts := m.hosts ++ [h] })

/-- Modelled from the spec (§4.3): `ActiveHosts()` is the current count. -/
def ActiveHosts (m : LimitManager) : ℕ :=
  m.hosts.length

/-- The registry state after a sequence of `GetLimiter` calls. -/
def runGets (m : LimitManager) : List String → LimitManager
  | [] => m
  | h :: hs => runGets (GetLimiter m h).2 hs

/-- Modelled from the spec (§4.5.2): `ceil(total / MinChunkSize)` on
naturals. -/
def ceilDiv (a b : ℕ) : ℕ :=
  (a + b - 1) / b

/-- Modelled from the spec (§4.5.2):
`nChunks = min(MaxConnectionsPerHost, ceil(total / MinChunkSize))`, at
least 1. -/
def nChunks (total minChunk maxConn : ℕ) : ℕ :=
  max 1 (min maxConn (ceilDiv total minChunk))

/-- Modelled from the spec (§4.5.2): base chunk size `c = total / nChunks`;
chunk `i` is the inclusive range `[i·c, (i+1)·c − 1]`, the last chunk
extended to `total − 1`. -/
def chunkPlan (total minChunk maxConn : ℕ) : List (ℕ × ℕ) :=
  let n := nChunks total minChunk maxConn
  let c := total / n
  (List.range' 0 n).map fun i =>
    (i * c, if i = n - 1 then total - 1 else (i + 1) * c - 1)

/-- Length of an inclusive byte range `[start, end]`. -/
def chunkLen (r : ℕ × ℕ) : ℕ :=
  r.2 + 1 - r.1

/-- `isPartitionOf lo hi rs` holds when `rs` is an ordered sequence of
nonempty inclusive ranges that are contiguous, non-overlapping and cover
`[lo, hi]` exactly. -/
def isPartitionOf : ℕ → ℕ → List (ℕ × ℕ) → Bool
  | lo, hi, [(s, e)] => s == lo && e == hi && decide (s ≤ e)
  | lo, hi, (s, e) :: rest => s == lo && decide (s ≤ e) && isPartitionOf (e + 1) hi rest
  | _, _, [] => false

/-- Modelled from the spec (§4.6): one event of a response body read by the
Single Downloader — either a buffer of bytes or an I/O failure. -/
inductive BodyEvent where
  | data (buf : List ℕ) : BodyEvent
  | ioFailure (msg : String) : BodyEvent
  deriving DecidableEq

/-- Modelled from the spec (§4.6): the Single Downloader's streaming loop.
Buffers are appended to the partial file in wire order; a mid-transfer
I/O failure is returned immediately — no retry — leaving the partial file
as written so far. -/
def streamBody : List BodyEvent → List ℕ → Option String × List ℕ
  | [], file => (none, file)
  | .data buf :: rest, file => streamBody rest (file ++ buf)
  | .ioFailure m :: _, file => (some m, file)

/-- Worker for `splitSlash`: the first segment and the remaining
segments. -/
def splitSlashCore : List Char → List Char × List (List Char)
  | [] => ([], [])
  | c :: cs =>
    let r := splitSlashCore cs
    if c = '/' then ([], r.1 :: r.2) else (c :: r.1, r.2)

/-- Split a character list into the segments between `/` separators
(Go `strings.Split(s, "/")` on the path's characters). -/
def splitSlash (cs : List Char) : List (List Char) :=
  (splitSlashCore cs).1 :: (splitSlashCore cs).2

/-- Join segments with `/` separators (inverse of `splitSlash` on
slash-free segments). -/
def joinSlash : List (List Char) → List Char
  | [] => []
  | [g] => g
  | g :: gs => g ++ '/' :: joinSlash gs

/-- The `..` path element. -/
def dotdot : List Char := ['.', '.']

/-- A path element that `filepath.Clean`'s processing passes through
untouched: non-empty, not `.`, not `..`, and slash-free. -/
def plainElem (e : List Char) : Prop :=
  e ≠ [] ∧ e ≠ ['.'] ∧ e ≠ dotdot ∧ '/' ∉ e

/-- One step of Go `filepath.Clean`'s element processing: empty and `.`
elements are dropped; `..` pops the previous element when one is poppable,
is dropped at the root of a rooted path, and is kept otherwise; any other
element is appended. -/
def stepElem (rooted : Bool) (acc : List (List Char)) (e : List Char) :
    List (List Char) :=
  if e = [] ∨ e = ['.'] then acc
  else if e = dotdot then
    if acc ≠ [] ∧ acc.getLast? ≠ some dotdot then acc.dropLast
    else if rooted then acc
    else acc ++ [dotdot]
  else acc ++ [e]

/-- Go `filepath.Clean`'s element processing over a whole segment list. -/
def cleanElems (rooted : Bool) (gs : List (List Char)) : List (List Char) :=
  gs.foldl (stepElem rooted) []

/-- Go `filepath.Clean` (Unix rules) on a character list: lexical
normalization — iterated separators, `.` and `..` elements are resolved;
the empty result is `.` for a relative path and `/` for a rooted one. -/
def cleanL (cs : List Char) : List Char :=
  let rooted : Bool := cs.head? == some '/'
  let es := cleanElems rooted (splitSlash cs)
  if rooted then '/' :: joinSlash es
  else if es = [] then ['.']
  else joinSlash es

/-- Go `filepath.Clean` on strings. -/
def filepathClean (s : String) : String :=
  String.mk (cleanL s.data)

/-- Go `filepath.IsAbs` (Unix rules): the path starts with `/`. -/
def filepathIsAbs (s : String) : Bool :=
  s.data.head? == some '/'

/-- Go `filepath.Join(wd, path)` for a non-empty `wd`:
`Clean(wd + "/" + path)`. -/
def filepathJoin (wd path : String) : String :=
  String.mk (cleanL (wd.data ++ '/' :: path.data))

/-- Go `filepath.Abs(path)` (Unix rules) with the working directory passed
explicitly: an absolute path is cleaned, a relative one is joined onto the
working directory.  Go's `Abs` fails only when `Getwd` fails; the model
takes the successfully resolved `wd` as an argument. -/
def filepathAbs (wd path : String) : String :=
  if filepathIsAbs path then filepathClean path
  else filepathJoin wd path

/-- Embedded from `src/unnamed/part_001` (`utils.EnsureAbsPath`): the empty
path is replaced by `.`, then `filepath.Abs` is applied; the fallback
branch that returns the input unchanged is taken only when absolute-path
resolution fails, which in this model (resolved `wd` given) never
happens. -/
def EnsureAbsPath (wd path : String) : String :=
  let p := if path = "" then "." else path
  filepathAbs wd p

/-! ### Theorems -/

/-- The jitter primitive stays inside `[base·(1−frac), base·(1+frac)]`
whenever the sample is in `[0, 1]` and base and fraction are
non-negative. -/
theorem addJitter_mem (base frac u : ℚ) (hb : 0 ≤ base) (hf : 0 ≤ frac)
    (h0 : 0 ≤ u) (h1 : u ≤ 1) :
    base * (1 - frac) ≤ addJitter base frac u ∧
      addJitter base frac u ≤ base * (1 + frac) := by
  unfold addJitter
  constructor <;> nlinarith [mul_nonneg hb hf, mul_nonneg (mul_nonneg hb hf) h0,
    mul_nonneg (mul_nonneg hb hf) (sub_nonneg.mpr h1)]

/-- C2: for every response whose `Retry-After` header parses as a
non-negative integer `N ∈ [1, 60]`, `Handle429` returns a duration in
`[0.9·N, 1.1·N]` seconds (the candidate `N` seconds perturbed by
`addJitter` with fraction `0.10`). -/
theorem handle429_retry_after_secs (st : RateLimiter) (N : ℕ) (now u : ℚ)
    (hN1 : 1 ≤ N) (hN2 : N ≤ 60) (h0 : 0 ≤ u) (h1 : u ≤ 1) :
    (9 / 10 : ℚ) * N ≤ (Handle429 st (.intSecs N) now u).1 ∧
      (Handle429 st (.intSecs N) now u).1 ≤ (11 / 10 : ℚ) * N := by
  have h := addJitter_mem (N : ℚ) (1 / 10) u (Nat.cast_nonneg N) (by norm_num) h0 h1
  simp only [Handle429, waitCandidate] at *
  constructor <;> nlinarith [h.1, h.2]

/-- Witness for `handle429_retry_after_secs` at `N = 5`, `u = 1/2`. -/
theorem handle429_retry_after_secs_witness :
    (1 ≤ 5 ∧ 5 ≤ 60 ∧ (0 : ℚ) ≤ 1 / 2 ∧ (1 / 2 : ℚ) ≤ 1) ∧
      ((9 / 10 : ℚ) * 5 ≤ (Handle429 (NewRateLimiter "test.com") (.intSecs 5) 0 (1 / 2)).1 ∧
        (Handle429 (NewRateLimiter "test.com") (.intSecs 5) 0 (1 / 2)).1 ≤ (11 / 10 : ℚ) * 5) :=
  ⟨by norm_num,
    handle429_retry_after_secs (NewRateLimiter "test.com") 5 0 (1 / 2)
      (by norm_num) (by norm_num) (by norm_num) (by norm_num)⟩

/-- C9: `addJitter(base, frac)` always returns a duration in
`[base·(1−frac), base·(1+frac)]`; with `base = 10 s`, `frac = 0.1` every
result lies in `[9 s, 11 s]`, and distinct uniform samples produce distinct
results (so a run of 100 calls whose samples are not all equal yields at
least two distinct durations). -/
theorem addJitter_bounds (base frac u u₁ u₂ : ℚ) (hb : 0 ≤ base)
    (hf : 0 ≤ frac) (h0 : 0 ≤ u) (h1 : u ≤ 1) :
    (base * (1 - frac) ≤ addJitter base frac u ∧
        addJitter base frac u ≤ base * (1 + frac)) ∧
      (9 ≤ addJitter 10 (1 / 10) u ∧ addJitter 10 (1 / 10) u ≤ 11) ∧
      (u₁ ≠ u₂ → addJitter 10 (1 / 10) u₁ ≠ addJitter 10 (1 / 10) u₂) := by
  refine ⟨addJitter_mem base frac u hb hf h0 h1, ?_, ?_⟩
  · have h := addJitter_mem 10 (1 / 10) u (by norm_num) (by norm_num) h0 h1
    constructor <;> nlinarith [h.1, h.2]
  · intro hne heq
    unfold addJitter at heq
    exact hne (by linarith)

/-- Witness for `addJitter_bounds` at `base = 10`, `frac = 1/10`,
`u = 1/2`, distinct samples `0` and `1`. -/
theorem addJitter_bounds_witness :
    ((0 : ℚ) ≤ 10 ∧ (0 : ℚ) ≤ 1 / 10 ∧ (0 : ℚ) ≤ 1 / 2 ∧ (1 / 2 : ℚ) ≤ 1 ∧ (0 : ℚ) ≠ 1) ∧
      (((10 : ℚ) * (1 - 1 / 10) ≤ addJitter 10 (1 / 10) (1 / 2) ∧
          addJitter 10 (1 / 10) (1 / 2) ≤ 10 * (1 + 1 / 10)) ∧
        (9 ≤ addJitter 10 (1 / 10) (1 / 2) ∧ addJitter 10 (1 / 10) (1 / 2) ≤ 11) ∧
        addJitter 10 (1 / 10) 0 ≠ addJitter 10 (1 / 10) 1) :=
  ⟨by norm_num,
    ⟨(addJitter_bounds 10 (1 / 10) (1 / 2) 0 1 (by norm_num) (by norm_num)
        (by norm_num) (by norm_num)).1,
      (addJitter_bounds 10 (1 / 10) (1 / 2) 0 1 (by norm_num) (by norm_num)
        (by norm_num) (by norm_num)).2.1,
      (addJitter_bounds 10 (1 / 10) (1 / 2) 0 1 (by norm_num) (by norm_num)
        (by norm_num) (by norm_num)).2.2 (by norm_num)⟩⟩

/-- After `k` header-less `Handle429` calls the streak counter has grown by
`k`. -/
theorem calls429_consecutive (st : RateLimiter) (now u : ℕ → ℚ) (k : ℕ) :
    (calls429 st now u k).consecutive429 = st.consecutive429 + k := by
  induction k with
  | zero => rfl
  | succ k ih => simp [calls429, Handle429, ih]; omega

/-- C3: `ReportSuccess` sets `consecutive429` to 0 and changes nothing else
(`blockedUntil` and the host key are untouched); a header-less `Handle429`
issued right after `ReportSuccess` — in particular after any `k` prior
`Handle429` calls — returns a duration in `[0.8, 1.2]` seconds. -/
theorem reportSuccess_frame (st : RateLimiter) (now' u' : ℕ → ℚ) (k : ℕ)
    (now u : ℚ) (h0 : 0 ≤ u) (h1 : u ≤ 1) :
    (ReportSuccess st).consecutive429 = 0 ∧
      (ReportSuccess st).blockedUntil = st.blockedUntil ∧
      (ReportSuccess st).host = st.host ∧
      ((8 / 10 : ℚ) ≤
          (Handle429 (ReportSuccess (calls429 st now' u' k)) .absent now u).1 ∧
        (Handle429 (ReportSuccess (calls429 st now' u' k)) .absent now u).1 ≤
          (12 / 10 : ℚ)) := by
  refine ⟨rfl, rfl, rfl, ?_⟩
  have h := addJitter_mem 1 (1 / 10) u (by norm_num) (by norm_num) h0 h1
  have hcand :
      waitCandidate (ReportSuccess (calls429 st now' u' k)) .absent now = 1 := by
    simp [waitCandidate, ReportSuccess, backoffCeiling]
  simp only [Handle429, hcand]
  constructor <;> nlinarith [h.1, h.2]

/-- Witness for `reportSuccess_frame` at `k = 2`, `u = 1/2`. -/
theorem reportSuccess_frame_witness :
    ((0 : ℚ) ≤ 1 / 2 ∧ (1 / 2 : ℚ) ≤ 1) ∧
      ((ReportSuccess (NewRateLimiter "test.com")).consecutive429 = 0 ∧
        (ReportSuccess (NewRateLimiter "test.com")).blockedUntil =
          (NewRateLimiter "test.com").blockedUntil ∧
        (ReportSuccess (NewRateLimiter "test.com")).host =
          (NewRateLimiter "test.com").host ∧
        ((8 / 10 : ℚ) ≤
            (Handle429
              (ReportSuccess
                (calls429 (NewRateLimiter "test.com") (fun _ => 0) (fun _ => 1 / 2) 2))
              .absent 0 (1 / 2)).1 ∧
          (Handle429
              (ReportSuccess
                (calls429 (NewRateLimiter "test.com") (fun _ => 0) (fun _ => 1 / 2) 2))
              .absent 0 (1 / 2)).1 ≤ (12 / 10 : ℚ))) :=
  ⟨by norm_num,
    reportSuccess_frame (NewRateLimiter "test.com") (fun _ => 0) (fun _ => 1 / 2) 2
      0 (1 / 2) (by norm_num) (by norm_num)⟩

/-- C4: every `Handle429` call updates `blockedUntil` to
`max(blockedUntil, now + jittered)` — so `blockedUntil` never decreases —
`IsBlocked()` returns true exactly when `now < blockedUntil`, and right
after a `Handle429` returning a positive wait, `IsBlocked()` is true. -/
theorem handle429_block_invariants (st : RateLimiter) (hv : RetryAfterView)
    (now t u : ℚ) :
    (Handle429 st hv now u).2.blockedUntil =
        max st.blockedUntil (now + (Handle429 st hv now u).1) ∧
      st.blockedUntil ≤ (Handle429 st hv now u).2.blockedUntil ∧
      (IsBlocked st t = true ↔ t < st.blockedUntil) ∧
      (0 < (Handle429 st hv now u).1 →
        IsBlocked (Handle429 st hv now u).2 now = true) := by
  refine ⟨rfl, le_max_left _ _, by simp [IsBlocked], ?_⟩
  intro hpos
  have : now < (Handle429 st hv now u).2.blockedUntil := by
    calc now < now + (Handle429 st hv now u).1 := by linarith
    _ ≤ (Handle429 st hv now u).2.blockedUntil := le_max_right _ _
  simpa [IsBlocked] using this

/-- Witness for `handle429_block_invariants`: after a 429 with
`Retry-After: 5` at instant 0 the limiter reports blocked. -/
theorem handle429_block_invariants_witness :
    IsBlocked (Handle429 (NewRateLimiter "test.com") (.intSecs 5) 0 (1 / 2)).2 0 = true :=
  (handle429_block_invariants (NewRateLimiter "test.com") (.intSecs 5) 0 0 (1 / 2)).2.2.2
    (by norm_num [Handle429, waitCandidate, addJitter])

/-- C1 (amended): for `1 ≤ n ≤ 9` — so that `2^(n−1)` is below the
5-minute backoff ceiling — the `n`-th `Handle429` call on a header-less
response (no intervening `ReportSuccess`) returns a duration in
`[0.8·2^(n−1), 1.2·2^(n−1)]` seconds; the exponent uses the pre-increment
streak, so the first call yields ~1 s and the second ~2 s.  For larger `n`
the candidate is capped at 300 s (see the counterexample). -/
theorem handle429_backoff_bounded (h : String) (now u : ℕ → ℚ) (n : ℕ)
    (hn1 : 1 ≤ n) (hn9 : n ≤ 9) (h0 : 0 ≤ u (n - 1)) (h1 : u (n - 1) ≤ 1) :
    (8 / 10 : ℚ) * 2 ^ (n - 1) ≤
        (Handle429 (calls429 (NewRateLimiter h) now u (n - 1)) .absent
          (now (n - 1)) (u (n - 1))).1 ∧
      (Handle429 (calls429 (NewRateLimiter h) now u (n - 1)) .absent
          (now (n - 1)) (u (n - 1))).1 ≤ (12 / 10 : ℚ) * 2 ^ (n - 1) := by
  have hcons : (calls429 (NewRateLimiter h) now u (n - 1)).consecutive429 = n - 1 := by
    simpa [NewRateLimiter] using calls429_consecutive (NewRateLimiter h) now u (n - 1)
  have hpow : ((2 : ℚ) ^ (n - 1)) ≤ backoffCeiling := by
    have h8 : (2 : ℚ) ^ (n - 1) ≤ 2 ^ 8 := by
      apply pow_le_pow_right₀ (by norm_num)
      omega
    rw [backoffCeiling]
    norm_num at h8 ⊢
    linarith
  have hpos : (0 : ℚ) < 2 ^ (n - 1) := by positivity
  have hcand :
      waitCandidate (calls429 (NewRateLimiter h) now u (n - 1)) .absent (now (n - 1)) =
        2 ^ (n - 1) := by
    simp [waitCandidate, hcons, min_eq_left hpow]
  have hj := addJitter_mem ((2 : ℚ) ^ (n - 1)) (1 / 10) (u (n - 1)) (le_of_lt hpos)
    (by norm_num) h0 h1
  simp only [Handle429, hcand]
  constructor <;> nlinarith [hj.1, hj.2]

/-- Witness for `handle429_backoff_bounded` at `n = 2`, all samples
`1/2`. -/
theorem handle429_backoff_bounded_witness :
    (1 ≤ 2 ∧ 2 ≤ 9 ∧ (0 : ℚ) ≤ 1 / 2 ∧ (1 / 2 : ℚ) ≤ 1) ∧
      ((8 / 10 : ℚ) * 2 ^ (2 - 1) ≤
          (Handle429 (calls429 (NewRateLimiter "test.com") (fun _ => 0) (fun _ => 1 / 2) (2 - 1))
            .absent 0 (1 / 2)).1 ∧
        (Handle429 (calls429 (NewRateLimiter "test.com") (fun _ => 0) (fun _ => 1 / 2) (2 - 1))
            .absent 0 (1 / 2)).1 ≤ (12 / 10 : ℚ) * 2 ^ (2 - 1)) :=
  ⟨by norm_num,
    handle429_backoff_bounded "test.com" (fun _ => 0) (fun _ => 1 / 2) 2
      (by norm_num) (by norm_num) (by norm_num) (by norm_num)⟩

/-- C1 counterexample: at `n = 10` the pre-jitter candidate is capped at
the 300 s ceiling (`2^9 = 512 > 300`), so the 10-th header-less call —
here with every jitter sample `1/2`, i.e. no perturbation — returns
exactly 300 s, below the claimed lower bound `0.8·2^9 = 409.6 s`. -/
theorem handle429_backoff_cap_cex :
    (Handle429 (calls429 (NewRateLimiter "test.com") (fun _ => 0) (fun _ => 1 / 2) 9)
        .absent 0 (1 / 2)).1 = 300 ∧
      ¬((8 / 10 : ℚ) * 2 ^ (10 - 1) ≤
        (Handle429 (calls429 (NewRateLimiter "test.com") (fun _ => 0) (fun _ => 1 / 2) 9)
          .absent 0 (1 / 2)).1) := by
  have hcons :
      (calls429 (NewRateLimiter "test.com") (fun _ => 0) (fun _ => 1 / 2) 9).consecutive429 =
        9 := by
    simpa [NewRateLimiter] using
      calls429_consecutive (NewRateLimiter "test.com") (fun _ => 0) (fun _ => 1 / 2) 9
  have hcand :
      waitCandidate (calls429 (NewRateLimiter "test.com") (fun _ => 0) (fun _ => 1 / 2) 9)
        .absent 0 = 300 := by
    rw [waitCandidate.eq_def]
    simp only [hcons, backoffCeiling]
    rw [min_eq_right (by norm_num)]
  have hval :
      (Handle429 (calls429 (NewRateLimiter "test.com") (fun _ => 0) (fun _ => 1 / 2) 9)
        .absent 0 (1 / 2)).1 = 300 := by
    simp only [Handle429, hcand, addJitter]
    norm_num
  refine ⟨hval, ?_⟩
  rw [hval]
  norm_num

/-- `hostIdx` misses exactly the hosts that are not in the list. -/
theorem hostIdx_eq_none (l : List String) (h : String) :
    hostIdx l h = none ↔ h ∉ l := by
  induction l with
  | nil => simp [hostIdx]
  | cons x xs ih =>
    by_cases hx : x = h
    · simp [hostIdx, hx]
    · simp [hostIdx, hx, ih, Ne.symm hx]

/-- The index returned by `hostIdx` points at the host. -/
theorem hostIdx_get (l : List String) (h : String) (i : ℕ)
    (heq : hostIdx l h = some i) : l[i]? = some h := by
  induction l generalizing i with
  | nil => simp [hostIdx] at heq
  | cons x xs ih =>
    by_cases hx : x = h
    · simp [hostIdx, hx] at heq
      subst heq
      simp [hx]
    · simp [hostIdx, hx] at heq
      obtain ⟨j, hj, rfl⟩ := heq
      simpa using ih j hj

/-- `hostIdx` is stable under extending the list on the right. -/
theorem hostIdx_append_of_some (l l' : List String) (h : String) (i : ℕ)
    (heq : hostIdx l h = some i) : hostIdx (l ++ l') h = some i := by
  induction l generalizing i with
  | nil => simp [hostIdx] at heq
  | cons x xs ih =>
    by_cases hx : x = h
    · simp [hostIdx, hx] at heq ⊢
      exact heq
    · simp [hostIdx, hx] at heq ⊢
      obtain ⟨j, hj, rfl⟩ := heq
      exact ⟨j, ih j hj, rfl⟩

/-- A freshly appended host is found at the old length. -/
theorem hostIdx_append_self (l : List String) (h : String)
    (hnone : hostIdx l h = none) : hostIdx (l ++ [h]) h = some l.length := by
  induction l with
  | nil => simp [hostIdx]
  | cons x xs ih =>
    by_cases hx : x = h
    · simp [hostIdx, hx] at hnone
    · simp [hostIdx, hx] at hnone ⊢
      exact ih hnone

/-- After any `GetLimiter m h`, the registry locates `h` exactly at the
returned instance identity. -/
theorem getLimiter_idx (m : LimitManager) (h : String) :
    hostIdx (GetLimiter m h).2.hosts h = some (GetLimiter m h).1 := by
  rcases heq : hostIdx m.hosts h with _ | i
  · simpa [GetLimiter, heq] using hostIdx_append_self m.hosts h heq
  · simpa [GetLimiter, heq] using heq

/-- A hit in the registry returns the found identity and leaves the
registry unchanged. -/
theorem getLimiter_of_some (m : LimitManager) (h : String) (i : ℕ)
    (heq : hostIdx m.hosts h = some i) : GetLimiter m h = (i, m) := by
  simp [GetLimiter, heq]

/-- `GetLimiter` only ever extends the host list on the right. -/
theorem getLimiter_hosts_extend (m : LimitManager) (h : String) :
    ∃ t, (GetLimiter m h).2.hosts = m.hosts ++ t := by
  rcases heq : hostIdx m.hosts h with _ | i
  · exact ⟨[h], by simp [GetLimiter, heq]⟩
  · exact ⟨[], by simp [GetLimiter, heq]⟩

/-- `GetLimiter` registers exactly its host. -/
theorem getLimiter_toFinset (m : LimitManager) (h : String) :
    (GetLimiter m h).2.hosts.toFinset = insert h m.hosts.toFinset := by
  rcases heq : hostIdx m.hosts h with _ | i
  · simp only [GetLimiter, heq, List.toFinset_append, List.toFinset_cons,
      List.toFinset_nil, insert_emptyc_eq]
    rw [Finset.union_comm, ← Finset.insert_eq]
  · have hmem : h ∈ m.hosts := by
      by_contra hno
      rw [(hostIdx_eq_none m.hosts h).mpr hno] at heq
      exact Option.noConfusion heq
    simp [GetLimiter, heq, Finset.insert_eq_self.mpr (List.mem_toFinset.mpr hmem)]

/-- `GetLimiter` keeps the host list duplicate-free. -/
theorem getLimiter_nodup (m : LimitManager) (h : String)
    (hnd : m.hosts.Nodup) : (GetLimiter m h).2.hosts.Nodup := by
  rcases heq : hostIdx m.hosts h with _ | i
  · have hno : h ∉ m.hosts := (hostIdx_eq_none m.hosts h).mp heq
    simp [GetLimiter, heq, List.nodup_append, hnd, hno]
  · simpa [GetLimiter, heq] using hnd

/-- The hosts registered by a call sequence are the initial ones plus the
looked-up ones. -/
theorem runGets_toFinset (hs : List String) :
    ∀ m : LimitManager,
      (runGets m hs).hosts.toFinset = m.hosts.toFinset ∪ hs.toFinset := by
  induction hs with
  | nil => intro m; simp [runGets]
  | cons h hs ih =>
    intro m
    rw [runGets, ih, getLimiter_toFinset]
    simp [Finset.insert_union, Finset.union_insert]

/-- A call sequence keeps the host list duplicate-free. -/
theorem runGets_nodup (hs : List String) :
    ∀ m : LimitManager, m.hosts.Nodup → (runGets m hs).hosts.Nodup := by
  induction hs with
  | nil => intro m hm; simpa [runGets] using hm
  | cons h hs ih => intro m hm; exact ih _ (getLimiter_nodup m h hm)

/-- C5: two `GetLimiter` calls with the same host return pointer-equal
instances (the same identity, with the registry unchanged by the second
call, so mutations through one handle are visible through the other);
distinct hosts yield distinct instances; and `ActiveHosts()` counts the
distinct hosts passed to `GetLimiter` since the last `Reset()`. -/
theorem registry_shared_instances (m : LimitManager) (h h₁ h₂ : String)
    (hs : List String) (hne : h₁ ≠ h₂) :
    ((GetLimiter (GetLimiter m h).2 h).1 = (GetLimiter m h).1 ∧
        (GetLimiter (GetLimiter m h).2 h).2 = (GetLimiter m h).2) ∧
      (GetLimiter (GetLimiter m h₁).2 h₂).1 ≠ (GetLimiter m h₁).1 ∧
      ActiveHosts (runGets ResetManager hs) = hs.toFinset.card := by
  refine ⟨?_, ?_, ?_⟩
  · have hidx := getLimiter_idx m h
    rw [getLimiter_of_some _ _ _ hidx]
    exact ⟨rfl, rfl⟩
  · intro hcontra
    have hidx₁ := getLimiter_idx m h₁
    have hidx₂ := getLimiter_idx (GetLimiter m h₁).2 h₂
    have hget₁ :
        (GetLimiter m h₁).2.hosts[(GetLimiter m h₁).1]? = some h₁ :=
      hostIdx_get _ _ _ hidx₁
    have hget₂ :
        (GetLimiter (GetLimiter m h₁).2 h₂).2.hosts[
          (GetLimiter (GetLimiter m h₁).2 h₂).1]? = some h₂ :=
      hostIdx_get _ _ _ hidx₂
    obtain ⟨t, ht⟩ := getLimiter_hosts_extend (GetLimiter m h₁).2 h₂
    have hlt : (GetLimiter m h₁).1 < (GetLimiter m h₁).2.hosts.length :=
      (List.getElem?_eq_some.mp hget₁).1
    have hget₁' :
        (GetLimiter (GetLimiter m h₁).2 h₂).2.hosts[(GetLimiter m h₁).1]? =
          some h₁ := by
      rw [ht, List.getElem?_append_left hlt]
      exact hget₁
    rw [hcontra, hget₁'] at hget₂
    exact hne (Option.some.inj hget₂)
  · have hnd : (runGets ResetManager hs).hosts.Nodup :=
      runGets_nodup hs ResetManager (by simp [ResetManager])
    have hfin := runGets_toFinset hs ResetManager
    calc ActiveHosts (runGets ResetManager hs)
        = (runGets ResetManager hs).hosts.toFinset.card :=
          (List.toFinset_card_of_nodup hnd).symm
      _ = hs.toFinset.card := by rw [hfin]; simp [ResetManager]

/-- Witness for `registry_shared_instances` with hosts `example.com` and
`other.com` and the lookup sequence of the registry tests. -/
theorem registry_shared_instances_witness :
    ("example.com" ≠ "other.com") ∧
      (((GetLimiter (GetLimiter ResetManager "example.com").2 "example.com").1 =
            (GetLimiter ResetManager "example.com").1 ∧
          (GetLimiter (GetLimiter ResetManager "example.com").2 "example.com").2 =
            (GetLimiter ResetManager "example.com").2) ∧
        (GetLimiter (GetLimiter ResetManager "example.com").2 "other.com").1 ≠
          (GetLimiter ResetManager "example.com").1 ∧
        ActiveHosts (runGets ResetManager ["example.com", "example.com", "other.com"]) =
          ["example.com", "example.com", "other.com"].toFinset.card) :=
  ⟨by decide,
    registry_shared_instances ResetManager "example.com" "example.com" "other.com"
      ["example.com", "example.com", "other.com"] (by decide)⟩

/-- Unfolding of `isPartitionOf` on a singleton. -/
theorem isPartitionOf_single (lo hi s e : ℕ) :
    isPartitionOf lo hi [(s, e)] = true ↔ s = lo ∧ e = hi ∧ s ≤ e := by
  show (s == lo && e == hi && decide (s ≤ e)) = true ↔ _
  simp [and_assoc]

/-- Unfolding of `isPartitionOf` on a list of two or more ranges. -/
theorem isPartitionOf_cons (lo hi s e : ℕ) (r : ℕ × ℕ) (rs : List (ℕ × ℕ)) :
    isPartitionOf lo hi ((s, e) :: r :: rs) = true ↔
      s = lo ∧ s ≤ e ∧ isPartitionOf (e + 1) hi (r :: rs) = true := by
  show (s == lo && decide (s ≤ e) && isPartitionOf (e + 1) hi (r :: rs)) = true ↔ _
  simp [and_assoc]

/-- The spec's chunk assignment over indices `[i, n)` partitions
`[i·c, total−1]` whenever the base size is positive and the last start
fits. -/
theorem chunkRanges_partition (c total n : ℕ) (hc : 1 ≤ c)
    (hlast : (n - 1) * c ≤ total - 1) :
    ∀ k i, i + k = n → 1 ≤ k →
      isPartitionOf (i * c) (total - 1)
        ((List.range' i k).map fun j =>
          (j * c, if j = n - 1 then total - 1 else (j + 1) * c - 1)) = true := by
  intro k
  induction k with
  | zero => omega
  | succ k ih =>
    intro i hik _
    cases k with
    | zero =>
      have hi : i = n - 1 := by omega
      subst hi
      rw [show List.range' (n - 1) 1 = [n - 1] from rfl, List.map_cons,
        List.map_nil, if_pos rfl, isPartitionOf_single]
      exact ⟨rfl, rfl, hlast⟩
    | succ k' =>
      have hne : i ≠ n - 1 := by omega
      have hmul : (i + 1) * c = i * c + c := Nat.succ_mul i c
      have he : (i + 1) * c - 1 + 1 = (i + 1) * c := by omega
      rw [show List.range' i (k' + 1 + 1) = i :: (i + 1) :: List.range' (i + 2) k'
          from rfl, List.map_cons, List.map_cons, if_neg hne, isPartitionOf_cons]
      refine ⟨rfl, by omega, ?_⟩
      rw [he]
      have := ih (i + 1) (by omega) (by omega)
      rw [show List.range' (i + 1) (k' + 1) = (i + 1) :: List.range' (i + 2) k'
          from rfl] at this
      simpa using this

/-- C6 (amended): for every positive `total`, `MinChunkSize` and
`MaxConnectionsPerHost`, the §4.5.2 chunk plan is an ordered sequence of
nonempty inclusive ranges that are contiguous, non-overlapping and cover
`[0, total−1]` exactly, with `nChunks` ranges in all; every range except
the last has length exactly `total / nChunks ≥ 1`.  The spec's stronger
invariant that non-last ranges have length ≥ `MinChunkSize` does not hold
(see the counterexample). -/
theorem chunkPlan_partition (total minChunk maxConn : ℕ)
    (ht : 0 < total) (hm : 0 < minChunk) (hx : 0 < maxConn) :
    isPartitionOf 0 (total - 1) (chunkPlan total minChunk maxConn) = true ∧
      (chunkPlan total minChunk maxConn).length = nChunks total minChunk maxConn ∧
      1 ≤ total / nChunks total minChunk maxConn ∧
      ∀ r ∈ (chunkPlan total minChunk maxConn).dropLast,
        chunkLen r = total / nChunks total minChunk maxConn := by
  have hceil : ceilDiv total minChunk ≤ total := by
    rw [ceilDiv, Nat.div_le_iff_le_mul_add_pred hm]
    have := Nat.le_mul_of_pos_left total hm
    omega
  have hn1 : 1 ≤ nChunks total minChunk maxConn := by
    rw [nChunks]; omega
  have hntot : nChunks total minChunk maxConn ≤ total := by
    rw [nChunks]; omega
  set n := nChunks total minChunk maxConn with hn
  set c := total / n with hcdef
  have hc1 : 1 ≤ c := (Nat.one_le_div_iff (by omega)).mpr hntot
  have hnc : n * c ≤ total := by
    rw [hcdef, Nat.mul_comm]
    exact Nat.div_mul_le_self total n
  have hlast : (n - 1) * c ≤ total - 1 := by
    have hsub : (n - 1) * c = n * c - c := by
      have := Nat.sub_mul n 1 c
      omega
    omega
  have hplan : chunkPlan total minChunk maxConn =
      (List.range' 0 n).map fun j =>
        (j * c, if j = n - 1 then total - 1 else (j + 1) * c - 1) := rfl
  refine ⟨?_, ?_, hc1, ?_⟩
  · have := chunkRanges_partition c total n hc1 hlast n 0 (by omega) hn1
    simpa [hplan] using this
  · simp [hplan]
  · intro r hr
    rw [hplan, ← List.map_dropLast] at hr
    have hdrop : (List.range' 0 n).dropLast = List.range' 0 (n - 1) := by
      rcases n with _ | m
      · simp at hn1
      · have : List.range' 0 (m + 1) = List.range' 0 m ++ [m] := by
          simpa using @List.range'_concat 1 0 m
        simp [this, List.dropLast_concat]
    rw [hdrop] at hr
    obtain ⟨j, hj, rfl⟩ := List.mem_map.mp hr
    have hjlt := (List.mem_range'_1.mp hj).2
    have hne : j ≠ n - 1 := by omega
    have hmul : (j + 1) * c = j * c + c := Nat.succ_mul j c
    simp only [if_neg hne, chunkLen]
    omega

/-- Witness for `chunkPlan_partition` at `total = 10`, `MinChunkSize = 2`,
`MaxConnectionsPerHost = 3` (plan `[(0,2), (3,5), (6,9)]`). -/
theorem chunkPlan_partition_witness :
    (0 < 10 ∧ 0 < 2 ∧ 0 < 3) ∧
      (isPartitionOf 0 (10 - 1) (chunkPlan 10 2 3) = true ∧
        (chunkPlan 10 2 3).length = nChunks 10 2 3 ∧
        1 ≤ 10 / nChunks 10 2 3 ∧
        ∀ r ∈ (chunkPlan 10 2 3).dropLast, chunkLen r = 10 / nChunks 10 2 3) :=
  ⟨by norm_num, chunkPlan_partition 10 2 3 (by norm_num) (by norm_num) (by norm_num)⟩

/-- C6 counterexample: with `total = 3`, `MinChunkSize = 2`,
`MaxConnectionsPerHost = 4` the algorithm produces `nChunks = 2` and base
size `c = 3 / 2 = 1`, so the first (non-last) chunk `[0, 0]` has length
`1 < MinChunkSize` — the claimed minimum-length invariant fails. -/
theorem chunkPlan_min_size_cex :
    chunkPlan 3 2 4 = [(0, 0), (1, 2)] ∧
      (0, 0) ∈ (chunkPlan 3 2 4).dropLast ∧ ¬(2 ≤ chunkLen (0, 0)) := by
  refine ⟨by decide, by decide, by decide⟩

/-- Streaming consumes leading data buffers by appending them to the
file. -/
theorem streamBody_data (bufs : List (List ℕ)) (evs : List BodyEvent) :
    ∀ pre : List ℕ,
      streamBody (bufs.map BodyEvent.data ++ evs) pre =
        streamBody evs (pre ++ bufs.flatten) := by
  induction bufs with
  | nil => intro pre; simp
  | cons b bs ih =>
    intro pre
    rw [List.map_cons, List.cons_append, streamBody, ih, List.flatten,
      List.append_assoc]

/-- C7: the Single Downloader never retries a mid-transfer failure — after
a server serves the buffers `bufs` (`F` bytes in all) of a larger declared
total and then fails the connection, `Download` returns the underlying I/O
error, nothing after the failure is consumed, and the partial file holds
the `pre`-existing bytes plus all `F` served bytes, hence has size at
least `F`. -/
theorem singleDownloader_no_retry (bufs : List (List ℕ)) (msg : String)
    (evs : List BodyEvent) (pre : List ℕ) :
    streamBody (bufs.map BodyEvent.data ++ BodyEvent.ioFailure msg :: evs) pre =
        (some msg, pre ++ bufs.flatten) ∧
      bufs.flatten.length ≤ (pre ++ bufs.flatten).length := by
  refine ⟨?_, by simp⟩
  rw [streamBody_data, streamBody]

/-- C8: the user-facing text of a `RateLimitError` with wait duration `d`
is exactly `"rate limited (429), retry after <d>"` with `<d>` rendered
with its unit suffix; for `d = 5 s` it is
`"rate limited (429), retry after 5s"`. -/
theorem rateLimitError_text (n : ℕ) :
    RateLimitError.Error ⟨n⟩ =
        "rate limited (429), retry after " ++ (toString n ++ "s") ∧
      RateLimitError.Error ⟨5⟩ = "rate limited (429), retry after 5s" :=
  ⟨rfl, by decide⟩

/-- Splitting distributes over a `/` separator. -/
theorem splitSlashCore_append (ys : List Char) :
    ∀ xs : List Char,
      splitSlashCore (xs ++ '/' :: ys) =
        ((splitSlashCore xs).1, (splitSlashCore xs).2 ++ splitSlash ys) := by
  intro xs
  induction xs with
  | nil => simp [splitSlashCore, splitSlash]
  | cons x xs ih =>
    by_cases hx : x = '/'
    · simp [splitSlashCore, hx, ih]
    · simp [splitSlashCore, hx, ih]

/-- `splitSlash` distributes over a `/` separator. -/
theorem splitSlash_append (xs ys : List Char) :
    splitSlash (xs ++ '/' :: ys) = splitSlash xs ++ splitSlash ys := by
  simp [splitSlash, splitSlashCore_append]

/-- A slash-free character list is a single segment. -/
theorem splitSlashCore_no_slash (cs : List Char) (h : '/' ∉ cs) :
    splitSlashCore cs = (cs, []) := by
  induction cs with
  | nil => rfl
  | cons c cs ih =>
    have hc : c ≠ '/' := fun hc => h (hc ▸ List.mem_cons_self c cs)
    have hcs : '/' ∉ cs := fun hm => h (List.mem_cons_of_mem c hm)
    simp [splitSlashCore, hc, ih hcs]

/-- A slash-free character list splits into exactly itself. -/
theorem splitSlash_no_slash (cs : List Char) (h : '/' ∉ cs) :
    splitSlash cs = [cs] := by
  simp [splitSlash, splitSlashCore_no_slash cs h]

/-- No segment produced by `splitSlashCore` contains a slash. -/
theorem splitSlashCore_groups (cs : List Char) :
    '/' ∉ (splitSlashCore cs).1 ∧ ∀ g ∈ (splitSlashCore cs).2, '/' ∉ g := by
  induction cs with
  | nil => simp [splitSlashCore]
  | cons c cs ih =>
    by_cases hc : c = '/'
    · simp only [splitSlashCore, hc, if_pos rfl]
      refine ⟨by simp, ?_⟩
      intro g hg
      rcases List.mem_cons.mp hg with rfl | hg
      · exact ih.1
      · exact ih.2 g hg
    · simp only [splitSlashCore, if_neg hc]
      refine ⟨?_, ih.2⟩
      intro hmem
      rcases List.mem_cons.mp hmem with h | h
      · exact hc h.symm
      · exact ih.1 h

/-- No segment produced by `splitSlash` contains a slash. -/
theorem splitSlash_groups (cs : List Char) :
    ∀ g ∈ splitSlash cs, '/' ∉ g := by
  intro g hg
  rcases List.mem_cons.mp hg with rfl | hg
  · exact (splitSlashCore_groups cs).1
  · exact (splitSlashCore_groups cs).2 g hg

/-- `splitSlash` undoes `joinSlash` on non-empty lists of slash-free
segments. -/
theorem splitSlash_joinSlash (es : List (List Char)) (hne : es ≠ [])
    (h : ∀ e ∈ es, '/' ∉ e) : splitSlash (joinSlash es) = es := by
  induction es with
  | nil => exact absurd rfl hne
  | cons e es ih =>
    cases es with
    | nil =>
      rw [show joinSlash [e] = e from rfl]
      exact splitSlash_no_slash e (h e (List.mem_cons_self e []))
    | cons e' es' =>
      rw [show joinSlash (e :: e' :: es') = e ++ '/' :: joinSlash (e' :: es')
          from rfl]
      rw [splitSlash_append, splitSlash_no_slash e (h e (by simp)),
        ih (by simp) (fun g hg => h g (List.mem_cons_of_mem e hg))]
      rfl

/-- Empty segments are dropped by the element processing. -/
theorem stepElem_empty (r : Bool) (acc : List (List Char)) :
    stepElem r acc [] = acc := by
  simp [stepElem]

/-- `.` segments are dropped by the element processing. -/
theorem stepElem_dot (r : Bool) (acc : List (List Char)) :
    stepElem r acc ['.'] = acc := by
  simp [stepElem]

/-- A plain element is appended unchanged, from any accumulator. -/
theorem stepElem_plain (r : Bool) (acc : List (List Char)) (e : List Char)
    (h : plainElem e) : stepElem r acc e = acc ++ [e] := by
  obtain ⟨h1, h2, h3, _⟩ := h
  simp [stepElem, h1, h2, h3]

/-- A leading empty segment does not change the processed elements. -/
theorem cleanElems_cons_empty (r : Bool) (gs : List (List Char)) :
    cleanElems r ([] :: gs) = cleanElems r gs := by
  simp [cleanElems, stepElem_empty]

/-- A trailing `.` segment does not change the processed elements. -/
theorem cleanElems_append_dot (r : Bool) (gs : List (List Char)) :
    cleanElems r (gs ++ [['.']]) = cleanElems r gs := by
  simp [cleanElems, List.foldl_append, stepElem_dot]

/-- Processing a list of plain elements appends them all unchanged. -/
theorem foldl_stepElem_plain (r : Bool) (es : List (List Char))
    (h : ∀ e ∈ es, plainElem e) :
    ∀ acc, List.foldl (stepElem r) acc es = acc ++ es := by
  induction es with
  | nil => simp
  | cons e es ih =>
    intro acc
    rw [List.foldl_cons, stepElem_plain r acc e (h e (by simp)),
      ih (fun g hg => h g (List.mem_cons_of_mem e hg)), List.append_assoc]
    rfl

/-- One rooted processing step keeps every accumulated element plain. -/
theorem stepElem_true_plain (acc : List (List Char)) (e : List Char)
    (hacc : ∀ g ∈ acc, plainElem g) (he : '/' ∉ e) :
    ∀ g ∈ stepElem true acc e, plainElem g := by
  intro g hg
  by_cases h1 : e = [] ∨ e = ['.']
  · rw [stepElem, if_pos h1] at hg
    exact hacc g hg
  · by_cases h2 : e = dotdot
    · rw [stepElem, if_neg h1, if_pos h2] at hg
      by_cases h3 : acc ≠ [] ∧ acc.getLast? ≠ some dotdot
      · rw [if_pos h3] at hg
        exact hacc g (List.dropLast_subset acc hg)
      · rw [if_neg h3, if_pos rfl] at hg
        exact hacc g hg
    · rw [stepElem, if_neg h1, if_neg h2] at hg
      rcases List.mem_append.mp hg with hg | hg
      · exact hacc g hg
      · rw [List.mem_singleton.mp hg]
        push_neg at h1
        exact ⟨h1.1, h1.2, h2, he⟩

/-- Rooted processing of slash-free segments yields plain elements. -/
theorem cleanElems_true_plain (gs : List (List Char))
    (h : ∀ g ∈ gs, '/' ∉ g) : ∀ g ∈ cleanElems true gs, plainElem g := by
  suffices haux : ∀ gs : List (List Char), (∀ g ∈ gs, '/' ∉ g) →
      ∀ acc : List (List Char), (∀ g ∈ acc, plainElem g) →
      ∀ g ∈ List.foldl (stepElem true) acc gs, plainElem g by
    exact haux gs h [] (by simp)
  intro gs
  induction gs with
  | nil => intro _ acc hacc g hg; exact hacc g hg
  | cons e es ih =>
    intro hgs acc hacc g hg
    rw [List.foldl_cons] at hg
    exact ih (fun x hx => hgs x (List.mem_cons_of_mem e hx))
      (stepElem true acc e)
      (stepElem_true_plain acc e hacc (hgs e (by simp))) g hg

/-- A path starting with `/` splits with a leading empty segment. -/
theorem splitSlash_cons_slash (t : List Char) :
    splitSlash ('/' :: t) = [] :: splitSlash t := by
  simp [splitSlash, splitSlashCore]

/-- `cleanL` on a rooted path prefixes the slash to the processed
segments. -/
theorem cleanL_rooted (cs : List Char) (h : cs.head? = some '/') :
    cleanL cs = '/' :: joinSlash (cleanElems true (splitSlash cs)) := by
  simp [cleanL, h]

/-- `cleanL` keeps a rooted path rooted. -/
theorem cleanL_rooted_head (cs : List Char) (h : cs.head? = some '/') :
    (cleanL cs).head? = some '/' := by
  rw [cleanL_rooted cs h]
  rfl

/-- `cleanL` is idempotent on rooted paths. -/
theorem cleanL_idem_rooted (cs : List Char) (h : cs.head? = some '/') :
    cleanL (cleanL cs) = cleanL cs := by
  have hplain : ∀ g ∈ cleanElems true (splitSlash cs), plainElem g :=
    cleanElems_true_plain (splitSlash cs) (splitSlash_groups cs)
  rw [cleanL_rooted cs h]
  rcases heq : cleanElems true (splitSlash cs) with _ | ⟨e, es'⟩
  · decide
  · rw [heq] at hplain
    have hnoslash : ∀ g ∈ e :: es', '/' ∉ g := fun g hg => (hplain g hg).2.2.2
    rw [cleanL_rooted ('/' :: joinSlash (e :: es')) rfl]
    congr 1
    rw [splitSlash_cons_slash, cleanElems_cons_empty,
      splitSlash_joinSlash (e :: es') (by simp) hnoslash,
      show cleanElems true (e :: es') = List.foldl (stepElem true) [] (e :: es')
        from rfl,
      foldl_stepElem_plain true (e :: es') hplain []]
    rfl

/-- `head?` of an append is decided by a non-empty left part. -/
theorem head?_append_of_left (l l' : List Char) (h : l ≠ []) :
    (l ++ l').head? = l.head? := by
  cases l with
  | nil => exact absurd rfl h
  | cons c cs => rfl

/-- `filepathIsAbs` unfolded. -/
theorem filepathIsAbs_iff (s : String) :
    filepathIsAbs s = true ↔ s.data.head? = some '/' := by
  simp [filepathIsAbs]

/-- An absolute path has at least one character. -/
theorem filepathIsAbs_data_ne (s : String) (h : filepathIsAbs s = true) :
    s.data ≠ [] := by
  intro hd
  rw [filepathIsAbs_iff, hd] at h
  exact Option.noConfusion h

/-- An absolute path is not the empty string. -/
theorem filepathIsAbs_ne_empty (s : String) (h : filepathIsAbs s = true) :
    s ≠ "" := by
  intro hs
  apply filepathIsAbs_data_ne s h
  rw [hs]

/-- On an absolute path, `EnsureAbsPath` just cleans. -/
theorem ensureAbsPath_of_abs (wd p : String) (hp : filepathIsAbs p = true) :
    EnsureAbsPath wd p = filepathClean p := by
  simp [EnsureAbsPath, filepathIsAbs_ne_empty p hp, filepathAbs, hp]

/-- On a non-empty relative path, `EnsureAbsPath` joins onto the working
directory. -/
theorem ensureAbsPath_of_rel (wd p : String) (hp : filepathIsAbs p = false)
    (hne : p ≠ "") : EnsureAbsPath wd p = filepathJoin wd p := by
  simp [EnsureAbsPath, hne, filepathAbs, hp]

/-- On the empty path, `EnsureAbsPath` joins `.` onto the working
directory. -/
theorem ensureAbsPath_empty (wd : String) :
    EnsureAbsPath wd "" = filepathJoin wd "." := by
  simp [EnsureAbsPath, filepathAbs, show filepathIsAbs "." = false from rfl]

/-- Whatever the input, the result of `EnsureAbsPath` under an absolute
working directory is `cleanL` of some rooted character list. -/
theorem ensureAbsPath_data (wd p : String) (hwd : filepathIsAbs wd = true) :
    ∃ t : List Char,
      (EnsureAbsPath wd p).data = cleanL t ∧ t.head? = some '/' := by
  have hwdne : wd.data ≠ [] := filepathIsAbs_data_ne wd hwd
  have hwdhead : wd.data.head? = some '/' := (filepathIsAbs_iff wd).mp hwd
  cases hp : filepathIsAbs p with
  | true =>
    exact ⟨p.data, by rw [ensureAbsPath_of_abs wd p hp]; rfl,
      (filepathIsAbs_iff p).mp hp⟩
  | false =>
    by_cases hne : p = ""
    · refine ⟨wd.data ++ '/' :: ['.'], ?_, ?_⟩
      · rw [hne, ensureAbsPath_empty]
        rfl
      · rw [head?_append_of_left wd.data _ hwdne]
        exact hwdhead
    · refine ⟨wd.data ++ '/' :: p.data, ?_, ?_⟩
      · rw [ensureAbsPath_of_rel wd p hp hne]
        rfl
      · rw [head?_append_of_left wd.data _ hwdne]
        exact hwdhead

/-- C10 (amended): when absolute-path resolution succeeds (the working
directory `wd` is given, absolute and clean, as Go's `Getwd` yields),
`EnsureAbsPath` always returns an absolute path; the empty string is
treated as `.` and maps to the working directory; a non-empty relative
path `q` maps to the working directory joined with `q`; an already
absolute path is returned lexically cleaned — unchanged when already
clean, like `r` here — and `EnsureAbsPath` is idempotent. -/
theorem ensureAbsPath_spec (wd p q r : String)
    (hwd : filepathIsAbs wd = true) (hclean : filepathClean wd = wd)
    (hq : filepathIsAbs q = false) (hqne : q ≠ "")
    (hr : filepathIsAbs r = true) (hrclean : filepathClean r = r) :
    filepathIsAbs (EnsureAbsPath wd p) = true ∧
      EnsureAbsPath wd "" = wd ∧
      EnsureAbsPath wd q = filepathJoin wd q ∧
      EnsureAbsPath wd r = r ∧
      EnsureAbsPath wd (EnsureAbsPath wd p) = EnsureAbsPath wd p := by
  have hwdne : wd.data ≠ [] := filepathIsAbs_data_ne wd hwd
  have hwdhead : wd.data.head? = some '/' := (filepathIsAbs_iff wd).mp hwd
  have habs : ∀ s : String, filepathIsAbs (EnsureAbsPath wd s) = true := by
    intro s
    obtain ⟨t, hdata, hhead⟩ := ensureAbsPath_data wd s hwd
    rw [filepathIsAbs_iff, hdata]
    exact cleanL_rooted_head t hhead
  refine ⟨habs p, ?_, ensureAbsPath_of_rel wd q hq hqne, ?_, ?_⟩
  · rw [ensureAbsPath_empty]
    apply String.ext
    show cleanL (wd.data ++ '/' :: ['.']) = wd.data
    have hjhead : (wd.data ++ '/' :: ['.']).head? = some '/' := by
      rw [head?_append_of_left wd.data _ hwdne]
      exact hwdhead
    have hsplit : splitSlash (wd.data ++ '/' :: ['.']) =
        splitSlash wd.data ++ [['.']] := by
      rw [splitSlash_append]
      rfl
    have h2 : cleanL wd.data = wd.data := by
      have := congrArg String.data hclean
      exact this
    rw [cleanL_rooted _ hjhead, hsplit, cleanElems_append_dot,
      ← cleanL_rooted wd.data hwdhead, h2]
  · rw [ensureAbsPath_of_abs wd r hr, hrclean]
  · obtain ⟨t, hdata, hhead⟩ := ensureAbsPath_data wd p hwd
    rw [ensureAbsPath_of_abs wd _ (habs p)]
    apply String.ext
    show cleanL (EnsureAbsPath wd p).data = (EnsureAbsPath wd p).data
    rw [hdata, cleanL_idem_rooted t hhead]

/-- Witness for `ensureAbsPath_spec` with `wd = "/home/user"`,
`p = "p/../x"`, `q = "foo"`, `r = "/tmp"`. -/
theorem ensureAbsPath_spec_witness :
    (filepathIsAbs "/home/user" = true ∧ filepathClean "/home/user" = "/home/user" ∧
        filepathIsAbs "foo" = false ∧ "foo" ≠ "" ∧
        filepathIsAbs "/tmp" = true ∧ filepathClean "/tmp" = "/tmp") ∧
      (filepathIsAbs (EnsureAbsPath "/home/user" "p/../x") = true ∧
        EnsureAbsPath "/home/user" "" = "/home/user" ∧
        EnsureAbsPath "/home/user" "foo" = filepathJoin "/home/user" "foo" ∧
        EnsureAbsPath "/home/user" "/tmp" = "/tmp" ∧
        EnsureAbsPath "/home/user" (EnsureAbsPath "/home/user" "p/../x") =
          EnsureAbsPath "/home/user" "p/../x") :=
  ⟨by refine ⟨rfl, by decide, rfl, by decide, rfl, by decide⟩,
    ensureAbsPath_spec "/home/user" "p/../x" "foo" "/tmp" rfl (by decide) rfl
      (by decide) rfl (by decide)⟩

/-- C10 counterexample: `"/a/.."` is already absolute, yet
`EnsureAbsPath` does not return it unchanged — Go's `filepath.Abs` cleans
the path, giving `"/"`. -/
theorem ensureAbsPath_unchanged_cex :
    filepathIsAbs "/a/.." = true ∧ EnsureAbsPath "/w" "/a/.." = "/" ∧
      EnsureAbsPath "/w" "/a/.." ≠ "/a/.." :=
  ⟨rfl, by decide, by decide⟩

end Surge

